import Mathlib

/-!
# Verification of the NUANMB → Maya animation converter

Shallow embedding of `nuanmb_to_maya` (files `src/converter.py`,
`src/math_utils.py`, `src/maya_writer.py`, `src/models.py`) and proofs of the
specification claims about it.

Modelling conventions:

* Python floats are modelled by exact arithmetic: `ℚ` for the resampling /
  continuity / assembly machinery (whose claims are structural) and `ℝ` for
  the trigonometric kernels of `math_utils.py`.
* The two numeric kernels that use floating-point trigonometry
  (`quat_to_euler` and `_apply_root_correction`) appear in the converter
  model as explicit function parameters (`eulerOf`, `rootCorrect`); they are
  embedded separately over `ℝ` where a claim is about their actual values.
* Python `int(x)` (truncation toward zero) is `int_trunc`.
-/

namespace Nuanmb

/-- `models.py` `Vector3`. -/
structure Vector3 (α : Type) where
  x : α
  y : α
  z : α
deriving DecidableEq, Repr

/-- `models.py` `Vector4` (quaternion storage order x, y, z, w). -/
structure Vector4 (α : Type) where
  x : α
  y : α
  z : α
  w : α
deriving DecidableEq, Repr

/-- `models.py` `Transform`: one pose sample. -/
structure Transform (α : Type) where
  translation : Vector3 α
  rotation : Vector4 α
  scale : Vector3 α
deriving DecidableEq, Repr

/-- `models.py` `TransformFlags`. -/
structure TransformFlags where
  override_translation : Bool := false
  override_rotation : Bool := false
  override_scale : Bool := false
  override_compensate_scale : Bool := false
deriving DecidableEq, Repr

/-- `models.py` `Track`. -/
structure Track (α : Type) where
  name : String
  compensate_scale : Bool
  transform_flags : TransformFlags
  values : List (Transform α)
deriving DecidableEq, Repr

/-- `models.py` `Node` (a bone with its tracks). -/
structure Node (α : Type) where
  name : String
  tracks : List (Track α)
deriving DecidableEq, Repr

/-- `models.py` `MayaKeyframe` (tangent metadata has fixed defaults). -/
structure MayaKeyframe where
  frame : ℤ
  value : ℚ
  in_tangent : String := "auto"
  out_tangent : String := "auto"
  lock : ℕ := 1
  weight_lock : ℕ := 0
  breakdown : ℕ := 0
deriving DecidableEq, Repr

/-- `models.py` `MayaAnimCurve`. -/
structure MayaAnimCurve where
  attribute_path : String
  attribute_name : String
  object_name : String
  input_type : ℕ
  output_type : ℕ
  index : ℕ
  keys : List MayaKeyframe
deriving DecidableEq, Repr

/-- One item of the emission sequence handed to the writer: either a curve
(`MayaAnimWriter.add_curve`) or an empty-bone placeholder
(`MayaAnimWriter.add_empty_bone`). -/
inductive EmissionItem where
  | curve (c : MayaAnimCurve)
  | empty (boneName : String)
deriving DecidableEq, Repr

/-- A skeleton entry of the NUSKTB JSON: `name` and optional `parent_index`. -/
structure SkeletonBone where
  name : String
  parent_index : Option ℕ
deriving DecidableEq, Repr

/-- Python `int(x)` for a float `x`: truncation toward zero. -/
def int_trunc (q : ℚ) : ℤ :=
  if q < 0 then ⌈q⌉ else ⌊q⌋

theorem int_trunc_of_nonneg {q : ℚ} (h : 0 ≤ q) : int_trunc q = ⌊q⌋ := by
  simp [int_trunc, not_lt.mpr h]

/-- `converter.py` `self.fps_conversion = maya_fps / 60.0`. -/
def fps_conversion (maya_fps : ℚ) : ℚ := maya_fps / 60

theorem ceil_sub360_toNat_lt {a : ℚ} (h : 180 < a) :
    (⌈a - 360⌉).toNat < (⌈a⌉).toNat := by
  have h2 : ⌈a - 360⌉ = ⌈a⌉ - 360 := by
    rw [show (360 : ℚ) = ((360 : ℤ) : ℚ) by norm_num, Int.ceil_sub_int]
  have h3 : (0 : ℤ) < ⌈a⌉ := by
    have := Int.lt_ceil.mpr (show ((0 : ℤ) : ℚ) < a by push_cast; linarith)
    simpa using this
  omega

theorem neg_floor_add360_toNat_lt {a : ℚ} (h : a < -180) :
    (-⌊a + 360⌋).toNat < (-⌊a⌋).toNat := by
  have h2 : ⌊a + 360⌋ = ⌊a⌋ + 360 := by
    rw [show (360 : ℚ) = ((360 : ℤ) : ℚ) by norm_num, Int.floor_add_int]
  have h3 : ⌊a⌋ < 0 := by
    have := Int.floor_lt.mpr (show a < ((0 : ℤ) : ℚ) by push_cast; linarith)
    simpa using this
  omega

/-- First `while` loop of `_correct_rotation_winding`:
`while current - previous > 180.0: current -= 360.0`. -/
def windDown (current previous : ℚ) : ℚ :=
  if current - previous > 180 then windDown (current - 360) previous else current
termination_by (⌈current - previous⌉).toNat
decreasing_by
  have h2 : current - 360 - previous = current - previous - 360 := by ring
  rw [h2]
  exact ceil_sub360_toNat_lt (by assumption)

/-- Second `while` loop of `_correct_rotation_winding`:
`while current - previous < -180.0: current += 360.0`. -/
def windUp (current previous : ℚ) : ℚ :=
  if current - previous < -180 then windUp (current + 360) previous else current
termination_by (-⌊current - previous⌋).toNat
decreasing_by
  have h2 : current + 360 - previous = current - previous + 360 := by ring
  rw [h2]
  exact neg_floor_add360_toNat_lt (by assumption)

/-- `converter.py` `_correct_rotation_winding`: runs the subtracting loop,
then the adding loop. -/
def correct_rotation_winding (current previous : ℚ) : ℚ :=
  windUp (windDown current previous) previous

theorem windDown_le (current previous : ℚ) :
    windDown current previous - previous ≤ 180 := by
  unfold windDown
  split
  · exact windDown_le (current - 360) previous
  · linarith [not_lt.mp (by assumption : ¬ (180 : ℚ) < current - previous)]
termination_by (⌈current - previous⌉).toNat
decreasing_by
  have h2 : current - 360 - previous = current - previous - 360 := by ring
  rw [h2]
  exact ceil_sub360_toNat_lt (by assumption)

theorem windUp_spec (current previous : ℚ) (h : current - previous ≤ 180) :
    -180 ≤ windUp current previous - previous ∧
      windUp current previous - previous ≤ 180 := by
  unfold windUp
  split
  · exact windUp_spec (current + 360) previous (by
      have h1 : current - previous < -180 := by assumption
      linarith)
  · constructor
    · linarith [not_lt.mp (by assumption : ¬ current - previous < -180)]
    · exact h
termination_by (-⌊current - previous⌋).toNat
decreasing_by
  have h2 : current + 360 - previous = current - previous + 360 := by ring
  rw [h2]
  exact neg_floor_add360_toNat_lt (by assumption)

/-- The winding correction lands within 180 of the reference value. -/
theorem correct_rotation_winding_bound (current previous : ℚ) :
    |correct_rotation_winding current previous - previous| ≤ 180 := by
  have h := windUp_spec (windDown current previous) previous
    (windDown_le current previous)
  rw [abs_le]
  exact ⟨h.1, h.2⟩

/-- The inline `if axis == 'x' / 'y' / else` chain of `_create_translation_keys`
(root branch reads raw components, non-root branch applies the Z-up → Y-up
remap `(x, z, -y)`). -/
def pickTranslation (is_root_bone : Bool) (axis : String) (t : Transform ℚ) : ℚ :=
  if is_root_bone then
    if axis = "x" then t.translation.x
    else if axis = "y" then t.translation.y
    else t.translation.z
  else
    if axis = "x" then t.translation.x
    else if axis = "y" then t.translation.z
    else -t.translation.y

/-- The inline `if axis == 'x' / 'y' / else` chain of `_create_scale_keys`
(non-root branch applies `(x, z, y)`, no sign flip). -/
def pickScale (is_root_bone : Bool) (axis : String) (t : Transform ℚ) : ℚ :=
  if is_root_bone then
    if axis = "x" then t.scale.x
    else if axis = "y" then t.scale.y
    else t.scale.z
  else
    if axis = "x" then t.scale.x
    else if axis = "y" then t.scale.z
    else t.scale.y

/-- The `for frame_idx, transform in enumerate(values)` loop of
`_create_translation_keys`: `frame_idx` and `last_maya_frame` are the loop
state; duplicate target frames are skipped. -/
def translationLoop (ratio : ℚ) (axis : String) (is_root_bone : Bool) :
    List (Transform ℚ) → ℕ → ℤ → List MayaKeyframe
  | [], _, _ => []
  | t :: rest, frame_idx, last_maya_frame =>
    let maya_frame := int_trunc ((frame_idx : ℚ) * ratio)
    if maya_frame = last_maya_frame then
      translationLoop ratio axis is_root_bone rest (frame_idx + 1) last_maya_frame
    else
      { frame := maya_frame, value := pickTranslation is_root_bone axis t } ::
        translationLoop ratio axis is_root_bone rest (frame_idx + 1) maya_frame

/-- `converter.py` `_create_translation_keys`. -/
def create_translation_keys (ratio : ℚ) (track : Track ℚ) (axis : String)
    (is_root_bone : Bool) : List MayaKeyframe :=
  translationLoop ratio axis is_root_bone track.values 0 (-1)

/-- The enumerate loop of `_create_scale_keys`. -/
def scaleLoop (ratio : ℚ) (axis : String) (is_root_bone : Bool) :
    List (Transform ℚ) → ℕ → ℤ → List MayaKeyframe
  | [], _, _ => []
  | t :: rest, frame_idx, last_maya_frame =>
    let maya_frame := int_trunc ((frame_idx : ℚ) * ratio)
    if maya_frame = last_maya_frame then
      scaleLoop ratio axis is_root_bone rest (frame_idx + 1) last_maya_frame
    else
      { frame := maya_frame, value := pickScale is_root_bone axis t } ::
        scaleLoop ratio axis is_root_bone rest (frame_idx + 1) maya_frame

/-- `converter.py` `_create_scale_keys`. -/
def create_scale_keys (ratio : ℚ) (track : Track ℚ) (axis : String)
    (is_root_bone : Bool) : List MayaKeyframe :=
  scaleLoop ratio axis is_root_bone track.values 0 (-1)

/-- The `euler_keys` dict `{'x': [...], 'y': [...], 'z': [...]}` of
`_create_rotation_keys`. -/
structure EulerKeys where
  x : List MayaKeyframe
  y : List MayaKeyframe
  z : List MayaKeyframe
deriving DecidableEq, Repr

/-- The enumerate loop of `_create_rotation_keys`.  State: `frame_idx`,
`last_maya_frame`, and the previous emitted (already-corrected) Euler values
`prev_euler_x/y/z` (initialised to 0).  `eulerOf` stands for
`quat_to_euler(·, order='XYZ')`, which is a numeric kernel parameter of the
model (its real-valued embedding is `quat_to_euler` below). -/
def rotationLoop (ratio : ℚ) (is_root_bone : Bool) (eulerOf : Vector4 ℚ → Vector3 ℚ) :
    List (Transform ℚ) → ℕ → ℤ → ℚ → ℚ → ℚ → EulerKeys
  | [], _, _, _, _, _ => ⟨[], [], []⟩
  | t :: rest, frame_idx, last_maya_frame, prev_x, prev_y, prev_z =>
    let maya_frame := int_trunc ((frame_idx : ℚ) * ratio)
    if maya_frame = last_maya_frame then
      rotationLoop ratio is_root_bone eulerOf rest (frame_idx + 1) last_maya_frame
        prev_x prev_y prev_z
    else
      let raw_euler := eulerOf t.rotation
      let euler0 : Vector3 ℚ :=
        if is_root_bone then ⟨raw_euler.x, raw_euler.y, raw_euler.z⟩
        else ⟨raw_euler.x, raw_euler.z, -raw_euler.y⟩
      let euler : Vector3 ℚ :=
        if 0 < frame_idx then
          ⟨correct_rotation_winding euler0.x prev_x,
           correct_rotation_winding euler0.y prev_y,
           correct_rotation_winding euler0.z prev_z⟩
        else euler0
      let tailKeys := rotationLoop ratio is_root_bone eulerOf rest (frame_idx + 1)
        maya_frame euler.x euler.y euler.z
      ⟨{ frame := maya_frame, value := euler.x } :: tailKeys.x,
       { frame := maya_frame, value := euler.y } :: tailKeys.y,
       { frame := maya_frame, value := euler.z } :: tailKeys.z⟩

/-- `converter.py` `_create_rotation_keys`. -/
def create_rotation_keys (ratio : ℚ) (track : Track ℚ) (is_root_bone : Bool)
    (eulerOf : Vector4 ℚ → Vector3 ℚ) : EulerKeys :=
  rotationLoop ratio is_root_bone eulerOf track.values 0 (-1) 0 0 0

/-- Two consecutive keys differ by at most 180 degrees in value. -/
def adjWithin180 (a b : MayaKeyframe) : Prop :=
  |b.value - a.value| ≤ 180

theorem chain_adjWithin180_frame_irrel (f1 f2 : ℤ) (v : ℚ) (l : List MayaKeyframe) :
    List.Chain' adjWithin180 ({ frame := f1, value := v } :: l) ↔
      List.Chain' adjWithin180 ({ frame := f2, value := v } :: l) := by
  cases l with
  | nil => simp
  | cons b bs => simp [List.chain'_cons, adjWithin180]

theorem rotationLoop_chain (ratio : ℚ) (is_root_bone : Bool)
    (eulerOf : Vector4 ℚ → Vector3 ℚ) :
    ∀ (vs : List (Transform ℚ)) (frame_idx : ℕ) (last : ℤ) (px py pz : ℚ),
      0 < frame_idx →
      List.Chain' adjWithin180 ({ frame := 0, value := px } ::
        (rotationLoop ratio is_root_bone eulerOf vs frame_idx last px py pz).x) ∧
      List.Chain' adjWithin180 ({ frame := 0, value := py } ::
        (rotationLoop ratio is_root_bone eulerOf vs frame_idx last px py pz).y) ∧
      List.Chain' adjWithin180 ({ frame := 0, value := pz } ::
        (rotationLoop ratio is_root_bone eulerOf vs frame_idx last px py pz).z) := by
  intro vs
  induction vs with
  | nil =>
    intro frame_idx last px py pz _
    simp [rotationLoop]
  | cons t rest ih =>
    intro frame_idx last px py pz hidx
    rw [rotationLoop]
    by_cases hdup : int_trunc ((frame_idx : ℚ) * ratio) = last
    · simp only [if_pos hdup]
      exact ih (frame_idx + 1) last px py pz (Nat.succ_pos _)
    · simp only [if_neg hdup, if_pos hidx]
      refine ⟨List.chain'_cons.mpr ⟨correct_rotation_winding_bound _ px, ?_⟩,
              List.chain'_cons.mpr ⟨correct_rotation_winding_bound _ py, ?_⟩,
              List.chain'_cons.mpr ⟨correct_rotation_winding_bound _ pz, ?_⟩⟩
      · exact (chain_adjWithin180_frame_irrel _ 0 _ _).mpr
          (ih (frame_idx + 1) _ _ _ _ (Nat.succ_pos _)).1
      · exact (chain_adjWithin180_frame_irrel _ 0 _ _).mpr
          (ih (frame_idx + 1) _ _ _ _ (Nat.succ_pos _)).2.1
      · exact (chain_adjWithin180_frame_irrel _ 0 _ _).mpr
          (ih (frame_idx + 1) _ _ _ _ (Nat.succ_pos _)).2.2

/-- **C1.** For every bone's rotation channel, in every emitted rotation
curve, every pair of consecutive keys `(f1,v1), (f2,v2)` satisfies
`|v2 - v1| ≤ 180` degrees: the winding correction uses the previous emitted
(already-corrected) value of the same axis as reference, the first emitted
key is unmodified and initialises that state, and the state threads across
source frames dropped by duplicate elision. -/
theorem C1_rotation_continuity_bound (ratio : ℚ) (track : Track ℚ)
    (is_root_bone : Bool) (eulerOf : Vector4 ℚ → Vector3 ℚ) :
    List.Chain' adjWithin180 (create_rotation_keys ratio track is_root_bone eulerOf).x ∧
    List.Chain' adjWithin180 (create_rotation_keys ratio track is_root_bone eulerOf).y ∧
    List.Chain' adjWithin180 (create_rotation_keys ratio track is_root_bone eulerOf).z := by
  unfold create_rotation_keys
  cases hvs : track.values with
  | nil => simp [rotationLoop]
  | cons t rest =>
    rw [rotationLoop]
    have hne : ¬ int_trunc (((0 : ℕ) : ℚ) * ratio) = (-1 : ℤ) := by
      norm_num [int_trunc]
    simp only [if_neg hne, if_neg (lt_irrefl 0)]
    refine ⟨?_, ?_, ?_⟩
    · exact ((chain_adjWithin180_frame_irrel _ 0 _ _).mpr
        (rotationLoop_chain ratio is_root_bone eulerOf rest 1 _ _ _ _ Nat.one_pos).1)
    · exact ((chain_adjWithin180_frame_irrel _ 0 _ _).mpr
        (rotationLoop_chain ratio is_root_bone eulerOf rest 1 _ _ _ _ Nat.one_pos).2.1)
    · exact ((chain_adjWithin180_frame_irrel _ 0 _ _).mpr
        (rotationLoop_chain ratio is_root_bone eulerOf rest 1 _ _ _ _ Nat.one_pos).2.2)

theorem floor_mul_mono {ratio : ℚ} (hr : 0 ≤ ratio) {a b : ℕ} (h : a ≤ b) :
    ⌊(a : ℚ) * ratio⌋ ≤ ⌊(b : ℚ) * ratio⌋ :=
  Int.floor_le_floor (mul_le_mul_of_nonneg_right (by exact_mod_cast h) hr)

/-- Frames are strictly increasing between consecutive keys. -/
def frameLt (a b : MayaKeyframe) : Prop := a.frame < b.frame

theorem translationLoop_spec (ratio : ℚ) (axis : String) (is_root_bone : Bool)
    (hr : 0 ≤ ratio) :
    ∀ (vs : List (Transform ℚ)) (i0 : ℕ) (last : ℤ),
      last ≤ ⌊(i0 : ℚ) * ratio⌋ →
      (∀ j : ℕ, j < i0 → ⌊(j : ℚ) * ratio⌋ ≤ last) →
      (∀ k ∈ translationLoop ratio axis is_root_bone vs i0 last,
        ∃ j : ℕ, i0 ≤ j ∧ ∃ t, vs.get? (j - i0) = some t ∧
          k.frame = ⌊(j : ℚ) * ratio⌋ ∧ k.value = pickTranslation is_root_bone axis t ∧
          ∀ j2 : ℕ, j2 < j → ⌊(j2 : ℚ) * ratio⌋ < ⌊(j : ℚ) * ratio⌋) ∧
      (∀ k ∈ translationLoop ratio axis is_root_bone vs i0 last, last < k.frame) ∧
      List.Chain' frameLt (translationLoop ratio axis is_root_bone vs i0 last) := by
  intro vs
  induction vs with
  | nil =>
    intro i0 last _ _
    simp [translationLoop]
  | cons t rest ih =>
    intro i0 last hlast hprev
    rw [translationLoop]
    simp only [int_trunc_of_nonneg (mul_nonneg (Nat.cast_nonneg i0) hr)]
    by_cases hdup : ⌊(i0 : ℚ) * ratio⌋ = last
    · simp only [if_pos hdup]
      have hlast2 : last ≤ ⌊((i0 + 1 : ℕ) : ℚ) * ratio⌋ := by
        calc last = ⌊(i0 : ℚ) * ratio⌋ := hdup.symm
        _ ≤ _ := floor_mul_mono hr (Nat.le_succ i0)
      have hprev2 : ∀ j : ℕ, j < i0 + 1 → ⌊(j : ℚ) * ratio⌋ ≤ last := by
        intro j hj
        rcases Nat.lt_succ_iff_lt_or_eq.mp hj with h | h
        · exact hprev j h
        · subst h; exact le_of_eq hdup
      obtain ⟨g1, g2, g3⟩ := ih (i0 + 1) last hlast2 hprev2
      refine ⟨?_, g2, g3⟩
      intro k hk
      obtain ⟨j, hij, t2, hget, hfr, hval, hmin⟩ := g1 k hk
      refine ⟨j, by omega, t2, ?_, hfr, hval, hmin⟩
      have : j - i0 = (j - (i0 + 1)) + 1 := by omega
      rw [this]
      simpa using hget
    · simp only [if_neg hdup]
      have hemit : last < ⌊(i0 : ℚ) * ratio⌋ := lt_of_le_of_ne hlast (Ne.symm hdup)
      have hlast2 : ⌊(i0 : ℚ) * ratio⌋ ≤ ⌊((i0 + 1 : ℕ) : ℚ) * ratio⌋ :=
        floor_mul_mono hr (Nat.le_succ i0)
      have hprev2 : ∀ j : ℕ, j < i0 + 1 → ⌊(j : ℚ) * ratio⌋ ≤ ⌊(i0 : ℚ) * ratio⌋ := by
        intro j hj
        exact floor_mul_mono hr (by omega)
      obtain ⟨g1, g2, g3⟩ := ih (i0 + 1) ⌊(i0 : ℚ) * ratio⌋ hlast2 hprev2
      refine ⟨?_, ?_, ?_⟩
      · intro k hk
        rcases List.mem_cons.mp hk with hk | hk
        · refine ⟨i0, le_refl _, t, by simp, ?_, ?_, ?_⟩
          · rw [hk]
          · rw [hk]
          · intro j2 hj2
            exact lt_of_le_of_lt (hprev j2 hj2) hemit
        · obtain ⟨j, hij, t2, hget, hfr, hval, hmin⟩ := g1 k hk
          refine ⟨j, by omega, t2, ?_, hfr, hval, hmin⟩
          have : j - i0 = (j - (i0 + 1)) + 1 := by omega
          rw [this]
          simpa using hget
      · intro k hk
        rcases List.mem_cons.mp hk with hk | hk
        · rw [hk]; exact hemit
        · exact lt_trans hemit (g2 k hk)
      · refine List.chain'_cons'.mpr ⟨?_, g3⟩
        intro b hb
        exact g2 b (List.mem_of_mem_head? hb)

theorem scaleLoop_spec (ratio : ℚ) (axis : String) (is_root_bone : Bool)
    (hr : 0 ≤ ratio) :
    ∀ (vs : List (Transform ℚ)) (i0 : ℕ) (last : ℤ),
      last ≤ ⌊(i0 : ℚ) * ratio⌋ →
      (∀ j : ℕ, j < i0 → ⌊(j : ℚ) * ratio⌋ ≤ last) →
      (∀ k ∈ scaleLoop ratio axis is_root_bone vs i0 last,
        ∃ j : ℕ, i0 ≤ j ∧ ∃ t, vs.get? (j - i0) = some t ∧
          k.frame = ⌊(j : ℚ) * ratio⌋ ∧ k.value = pickScale is_root_bone axis t ∧
          ∀ j2 : ℕ, j2 < j → ⌊(j2 : ℚ) * ratio⌋ < ⌊(j : ℚ) * ratio⌋) ∧
      (∀ k ∈ scaleLoop ratio axis is_root_bone vs i0 last, last < k.frame) ∧
      List.Chain' frameLt (scaleLoop ratio axis is_root_bone vs i0 last) := by
  intro vs
  induction vs with
  | nil =>
    intro i0 last _ _
    simp [scaleLoop]
  | cons t rest ih =>
    intro i0 last hlast hprev
    rw [scaleLoop]
    simp only [int_trunc_of_nonneg (mul_nonneg (Nat.cast_nonneg i0) hr)]
    by_cases hdup : ⌊(i0 : ℚ) * ratio⌋ = last
    · simp only [if_pos hdup]
      have hlast2 : last ≤ ⌊((i0 + 1 : ℕ) : ℚ) * ratio⌋ := by
        calc last = ⌊(i0 : ℚ) * ratio⌋ := hdup.symm
        _ ≤ _ := floor_mul_mono hr (Nat.le_succ i0)
      have hprev2 : ∀ j : ℕ, j < i0 + 1 → ⌊(j : ℚ) * ratio⌋ ≤ last := by
        intro j hj
        rcases Nat.lt_succ_iff_lt_or_eq.mp hj with h | h
        · exact hprev j h
        · subst h; exact le_of_eq hdup
      obtain ⟨g1, g2, g3⟩ := ih (i0 + 1) last hlast2 hprev2
      refine ⟨?_, g2, g3⟩
      intro k hk
      obtain ⟨j, hij, t2, hget, hfr, hval, hmin⟩ := g1 k hk
      refine ⟨j, by omega, t2, ?_, hfr, hval, hmin⟩
      have : j - i0 = (j - (i0 + 1)) + 1 := by omega
      rw [this]
      simpa using hget
    · simp only [if_neg hdup]
      have hemit : last < ⌊(i0 : ℚ) * ratio⌋ := lt_of_le_of_ne hlast (Ne.symm hdup)
      have hlast2 : ⌊(i0 : ℚ) * ratio⌋ ≤ ⌊((i0 + 1 : ℕ) : ℚ) * ratio⌋ :=
        floor_mul_mono hr (Nat.le_succ i0)
      have hprev2 : ∀ j : ℕ, j < i0 + 1 → ⌊(j : ℚ) * ratio⌋ ≤ ⌊(i0 : ℚ) * ratio⌋ := by
        intro j hj
        exact floor_mul_mono hr (by omega)
      obtain ⟨g1, g2, g3⟩ := ih (i0 + 1) ⌊(i0 : ℚ) * ratio⌋ hlast2 hprev2
      refine ⟨?_, ?_, ?_⟩
      · intro k hk
        rcases List.mem_cons.mp hk with hk | hk
        · refine ⟨i0, le_refl _, t, by simp, ?_, ?_, ?_⟩
          · rw [hk]
          · rw [hk]
          · intro j2 hj2
            exact lt_of_le_of_lt (hprev j2 hj2) hemit
        · obtain ⟨j, hij, t2, hget, hfr, hval, hmin⟩ := g1 k hk
          refine ⟨j, by omega, t2, ?_, hfr, hval, hmin⟩
          have : j - i0 = (j - (i0 + 1)) + 1 := by omega
          rw [this]
          simpa using hget
      · intro k hk
        rcases List.mem_cons.mp hk with hk | hk
        · rw [hk]; exact hemit
        · exact lt_trans hemit (g2 k hk)
      · refine List.chain'_cons'.mpr ⟨?_, g3⟩
        intro b hb
        exact g2 b (List.mem_of_mem_head? hb)

/-- The rotation loop keeps or drops exactly the same source frames as the
translation/scale loops (the duplicate-elision state machine is identical),
so each of its three per-axis lists carries the same frame sequence. -/
theorem rotationLoop_frames (ratio : ℚ) (axis : String) (is_root_bone : Bool)
    (eulerOf : Vector4 ℚ → Vector3 ℚ) :
    ∀ (vs : List (Transform ℚ)) (i0 : ℕ) (last : ℤ) (px py pz : ℚ),
      ((rotationLoop ratio is_root_bone eulerOf vs i0 last px py pz).x.map
          (fun k => k.frame)
        = (translationLoop ratio axis is_root_bone vs i0 last).map
            (fun k => k.frame)) ∧
      ((rotationLoop ratio is_root_bone eulerOf vs i0 last px py pz).y.map
          (fun k => k.frame)
        = (translationLoop ratio axis is_root_bone vs i0 last).map
            (fun k => k.frame)) ∧
      ((rotationLoop ratio is_root_bone eulerOf vs i0 last px py pz).z.map
          (fun k => k.frame)
        = (translationLoop ratio axis is_root_bone vs i0 last).map
            (fun k => k.frame)) := by
  intro vs
  induction vs with
  | nil =>
    intro i0 last px py pz
    simp [rotationLoop, translationLoop]
  | cons t rest ih =>
    intro i0 last px py pz
    rw [rotationLoop, translationLoop]
    by_cases hdup : int_trunc ((i0 : ℚ) * ratio) = last
    · simp only [if_pos hdup]
      exact ih (i0 + 1) last px py pz
    · simp only [if_neg hdup]
      obtain ⟨e1, e2, e3⟩ := ih (i0 + 1) (int_trunc ((i0 : ℚ) * ratio)) _ _ _
      refine ⟨?_, ?_, ?_⟩
      · simpa using e1
      · simpa using e2
      · simpa using e3

/-- **C6.** For every channel of every bone and every target fps > 0, each
emitted key's frame equals `floor(source_frame_index * target_fps / 60)`, and
no two consecutive keys of a curve share the same frame value (frames are in
fact strictly increasing): when several source frames map to one target
frame, the first such source frame's value is kept (the emitting source
index `j` is minimal: every earlier index has a strictly smaller target
frame) and the later ones are discarded, never overwritten or averaged.
The rotation channels keep or drop exactly the same frames as the
translation channel. -/
theorem C6_frame_mapping_and_duplicate_elision (maya_fps : ℚ) (track : Track ℚ)
    (axis : String) (is_root_bone : Bool) (eulerOf : Vector4 ℚ → Vector3 ℚ)
    (hfps : 0 < maya_fps) :
    (∀ k ∈ create_translation_keys (fps_conversion maya_fps) track axis is_root_bone,
      ∃ j : ℕ, ∃ t, track.values.get? j = some t ∧
        k.frame = ⌊(j : ℚ) * fps_conversion maya_fps⌋ ∧
        k.value = pickTranslation is_root_bone axis t ∧
        ∀ j2 : ℕ, j2 < j →
          ⌊(j2 : ℚ) * fps_conversion maya_fps⌋ < ⌊(j : ℚ) * fps_conversion maya_fps⌋) ∧
    List.Chain' frameLt
      (create_translation_keys (fps_conversion maya_fps) track axis is_root_bone) ∧
    (∀ k ∈ create_scale_keys (fps_conversion maya_fps) track axis is_root_bone,
      ∃ j : ℕ, ∃ t, track.values.get? j = some t ∧
        k.frame = ⌊(j : ℚ) * fps_conversion maya_fps⌋ ∧
        k.value = pickScale is_root_bone axis t ∧
        ∀ j2 : ℕ, j2 < j →
          ⌊(j2 : ℚ) * fps_conversion maya_fps⌋ < ⌊(j : ℚ) * fps_conversion maya_fps⌋) ∧
    List.Chain' frameLt
      (create_scale_keys (fps_conversion maya_fps) track axis is_root_bone) ∧
    ((create_rotation_keys (fps_conversion maya_fps) track is_root_bone eulerOf).x.map
        (fun k => k.frame)
      = (create_translation_keys (fps_conversion maya_fps) track axis is_root_bone).map
          (fun k => k.frame)) ∧
    ((create_rotation_keys (fps_conversion maya_fps) track is_root_bone eulerOf).y.map
        (fun k => k.frame)
      = (create_translation_keys (fps_conversion maya_fps) track axis is_root_bone).map
          (fun k => k.frame)) ∧
    ((create_rotation_keys (fps_conversion maya_fps) track is_root_bone eulerOf).z.map
        (fun k => k.frame)
      = (create_translation_keys (fps_conversion maya_fps) track axis is_root_bone).map
          (fun k => k.frame)) := by
  have hr : 0 ≤ fps_conversion maya_fps := by
    unfold fps_conversion
    positivity
  have hlast : (-1 : ℤ) ≤ ⌊((0 : ℕ) : ℚ) * fps_conversion maya_fps⌋ := by
    norm_num
  have hprev : ∀ j : ℕ, j < 0 → ⌊(j : ℚ) * fps_conversion maya_fps⌋ ≤ (-1 : ℤ) := by
    intro j hj
    exact absurd hj (Nat.not_lt_zero j)
  obtain ⟨t1, t2, t3⟩ := translationLoop_spec (fps_conversion maya_fps) axis is_root_bone hr
    track.values 0 (-1) hlast hprev
  obtain ⟨s1, s2, s3⟩ := scaleLoop_spec (fps_conversion maya_fps) axis is_root_bone hr
    track.values 0 (-1) hlast hprev
  obtain ⟨r1, r2, r3⟩ := rotationLoop_frames (fps_conversion maya_fps) axis is_root_bone
    eulerOf track.values 0 (-1) 0 0 0
  refine ⟨?_, t3, ?_, s3, r1, r2, r3⟩
  · intro k hk
    obtain ⟨j, _, t, hget, hfr, hval, hmin⟩ := t1 k hk
    exact ⟨j, t, by simpa using hget, hfr, hval, hmin⟩
  · intro k hk
    obtain ⟨j, _, t, hget, hfr, hval, hmin⟩ := s1 k hk
    exact ⟨j, t, by simpa using hget, hfr, hval, hmin⟩

theorem translationLoop_congr (ratio : ℚ) (ax1 ax2 : String) (ir1 ir2 : Bool)
    (hpick : ∀ t, pickTranslation ir1 ax1 t = pickTranslation ir2 ax2 t) :
    ∀ (vs : List (Transform ℚ)) (i0 : ℕ) (last : ℤ),
      translationLoop ratio ax1 ir1 vs i0 last = translationLoop ratio ax2 ir2 vs i0 last := by
  intro vs
  induction vs with
  | nil => intro i0 last; simp [translationLoop]
  | cons t rest ih =>
    intro i0 last
    rw [translationLoop, translationLoop]
    by_cases hdup : int_trunc ((i0 : ℚ) * ratio) = last
    · simp only [if_pos hdup]
      exact ih (i0 + 1) last
    · simp only [if_neg hdup, hpick t, ih (i0 + 1) _]

theorem translationLoop_neg (ratio : ℚ) (ax1 ax2 : String) (ir1 ir2 : Bool)
    (hpick : ∀ t, pickTranslation ir1 ax1 t = -(pickTranslation ir2 ax2 t)) :
    ∀ (vs : List (Transform ℚ)) (i0 : ℕ) (last : ℤ),
      translationLoop ratio ax1 ir1 vs i0 last =
        (translationLoop ratio ax2 ir2 vs i0 last).map
          (fun k => { k with value := -k.value }) := by
  intro vs
  induction vs with
  | nil => intro i0 last; simp [translationLoop]
  | cons t rest ih =>
    intro i0 last
    rw [translationLoop, translationLoop]
    by_cases hdup : int_trunc ((i0 : ℚ) * ratio) = last
    · simp only [if_pos hdup]
      exact ih (i0 + 1) last
    · simp only [if_neg hdup, List.map_cons]
      rw [hpick t, ih (i0 + 1) _]

theorem scaleLoop_congr (ratio : ℚ) (ax1 ax2 : String) (ir1 ir2 : Bool)
    (hpick : ∀ t, pickScale ir1 ax1 t = pickScale ir2 ax2 t) :
    ∀ (vs : List (Transform ℚ)) (i0 : ℕ) (last : ℤ),
      scaleLoop ratio ax1 ir1 vs i0 last = scaleLoop ratio ax2 ir2 vs i0 last := by
  intro vs
  induction vs with
  | nil => intro i0 last; simp [scaleLoop]
  | cons t rest ih =>
    intro i0 last
    rw [scaleLoop, scaleLoop]
    by_cases hdup : int_trunc ((i0 : ℚ) * ratio) = last
    · simp only [if_pos hdup]
      exact ih (i0 + 1) last
    · simp only [if_neg hdup, hpick t, ih (i0 + 1) _]

theorem rotationLoop_nonroot_remap (ratio : ℚ) (eulerOf : Vector4 ℚ → Vector3 ℚ) :
    ∀ (vs : List (Transform ℚ)) (i0 : ℕ) (last : ℤ) (px py pz : ℚ),
      rotationLoop ratio false eulerOf vs i0 last px py pz =
        rotationLoop ratio true
          (fun q => ⟨(eulerOf q).x, (eulerOf q).z, -(eulerOf q).y⟩)
          vs i0 last px py pz := by
  intro vs
  induction vs with
  | nil => intro i0 last px py pz; simp [rotationLoop]
  | cons t rest ih =>
    intro i0 last px py pz
    rw [rotationLoop, rotationLoop]
    by_cases hdup : int_trunc ((i0 : ℚ) * ratio) = last
    · simp only [if_pos hdup]
      exact ih (i0 + 1) last px py pz
    · simp only [if_neg hdup, Bool.false_eq_true, if_false, if_true, ih (i0 + 1) _]

/-- **C7.** For every non-root bone and every frame, the emitted channel
values apply the fixed axis remap: the non-root pipeline coincides with the
raw (root-branch) pipeline precomposed with the remap.  Translation reads
`(x_raw, z_raw, -y_raw)`, scale reads `(x_raw, z_raw, y_raw)` with no sign
flip, and rotation first decomposes the raw quaternion to Euler XYZ and then
permutes the triple as `(x_raw, z_raw, -y_raw)` before the continuity
correction runs (the remapped Euler function feeds the same winding loop). -/
theorem C7_nonroot_axis_remap (ratio : ℚ) (track : Track ℚ)
    (eulerOf : Vector4 ℚ → Vector3 ℚ) :
    create_translation_keys ratio track "x" false =
      create_translation_keys ratio track "x" true ∧
    create_translation_keys ratio track "y" false =
      create_translation_keys ratio track "z" true ∧
    create_translation_keys ratio track "z" false =
      (create_translation_keys ratio track "y" true).map
        (fun k => { k with value := -k.value }) ∧
    create_scale_keys ratio track "x" false =
      create_scale_keys ratio track "x" true ∧
    create_scale_keys ratio track "y" false =
      create_scale_keys ratio track "z" true ∧
    create_scale_keys ratio track "z" false =
      create_scale_keys ratio track "y" true ∧
    create_rotation_keys ratio track false eulerOf =
      create_rotation_keys ratio track true
        (fun q => ⟨(eulerOf q).x, (eulerOf q).z, -(eulerOf q).y⟩) := by
  unfold create_translation_keys create_scale_keys create_rotation_keys
  refine ⟨translationLoop_congr ratio _ _ _ _ (fun t => ?_) track.values 0 (-1),
          translationLoop_congr ratio _ _ _ _ (fun t => ?_) track.values 0 (-1),
          translationLoop_neg ratio _ _ _ _ (fun t => ?_) track.values 0 (-1),
          scaleLoop_congr ratio _ _ _ _ (fun t => ?_) track.values 0 (-1),
          scaleLoop_congr ratio _ _ _ _ (fun t => ?_) track.values 0 (-1),
          scaleLoop_congr ratio _ _ _ _ (fun t => ?_) track.values 0 (-1),
          rotationLoop_nonroot_remap ratio eulerOf track.values 0 (-1) 0 0 0⟩
  · rfl
  · rfl
  · rfl
  · rfl
  · rfl
  · rfl

/-- Value classifier for emission items. -/
def itemIsCurve : EmissionItem → Bool
  | .curve _ => true
  | .empty _ => false

/-- `(index, attribute_name)` of an emitted curve (placeholders map to a
dummy). -/
def itemIndexAttr : EmissionItem → ℕ × String
  | .curve c => (c.index, c.attribute_name)
  | .empty n => (0, n)

/-- The shared shape of the three curve-emitting `for axis, attr in [...]`
loops of `_process_bone`: each entry is
`(attribute_path, attribute_name, keys)`; a curve (with
`input_type = output_type = 0`) is appended only when `keys` is non-empty
(`if keys:`), and the bone-local `curve_index` advances only on emission. -/
def emitCurves (bone_name : String) :
    List (String × String × List MayaKeyframe) → ℕ → List EmissionItem
  | [], _ => []
  | (path, attr, keys) :: rest, curve_index =>
    if keys.isEmpty then emitCurves bone_name rest curve_index
    else
      .curve { attribute_path := path, attribute_name := attr,
               object_name := bone_name, input_type := 0, output_type := 0,
               index := curve_index, keys := keys } ::
        emitCurves bone_name rest (curve_index + 1)

/-- `converter.py` `_process_bone`, as the list of emission items it adds to
the writer.  `rootCorrect` stands for `_apply_root_correction` and `eulerOf`
for `quat_to_euler` (numeric kernel parameters of the model; their
real-valued embeddings are below). -/
def process_bone (rootCorrect : Transform ℚ → Transform ℚ)
    (eulerOf : Vector4 ℚ → Vector3 ℚ) (ratio : ℚ) (node : Node ℚ) :
    List EmissionItem :=
  let is_root_bone : Bool := node.name == "Trans"
  match node.tracks.find? (fun t => t.name == "Transform" && !t.values.isEmpty) with
  | none => []
  | some transform_track =>
    let processed_values :=
      if is_root_bone then transform_track.values.map rootCorrect
      else transform_track.values
    let track_for_keys : Track ℚ :=
      { name := transform_track.name,
        values := processed_values,
        transform_flags := transform_track.transform_flags,
        compensate_scale := transform_track.compensate_scale }
    let euler_keys := create_rotation_keys ratio track_for_keys is_root_bone eulerOf
    emitCurves node.name
      [("translate.translateX", "translateX",
         create_translation_keys ratio track_for_keys "x" is_root_bone),
       ("translate.translateY", "translateY",
         create_translation_keys ratio track_for_keys "y" is_root_bone),
       ("translate.translateZ", "translateZ",
         create_translation_keys ratio track_for_keys "z" is_root_bone),
       ("rotate.rotateX", "rotateX", euler_keys.x),
       ("rotate.rotateY", "rotateY", euler_keys.y),
       ("rotate.rotateZ", "rotateZ", euler_keys.z),
       ("scale.scaleX", "scaleX", create_scale_keys ratio track_for_keys "x" is_root_bone),
       ("scale.scaleY", "scaleY", create_scale_keys ratio track_for_keys "y" is_root_bone),
       ("scale.scaleZ", "scaleZ", create_scale_keys ratio track_for_keys "z" is_root_bone)]
      0

/-- Steps 4–5 of `converter.py` `convert`, as the emission sequence handed
to the writer: bones are walked in skeleton order, a bone present in the
animation node map is processed, a bone absent from it gets an
`add_empty_bone` placeholder; animation nodes missing from the skeleton are
processed at the end.  The node map is a Python dict built in iteration
order (later duplicate names overwrite earlier ones), hence the reversed
`find?`. -/
def convert_emission (bone_order : List String) (all_nodes : List (Node ℚ))
    (rootCorrect : Transform ℚ → Transform ℚ)
    (eulerOf : Vector4 ℚ → Vector3 ℚ) (ratio : ℚ) : List EmissionItem :=
  (bone_order.flatMap (fun bone_name =>
    match all_nodes.reverse.find? (fun nd => nd.name == bone_name) with
    | some node => process_bone rootCorrect eulerOf ratio node
    | none => [EmissionItem.empty bone_name])) ++
  (all_nodes.filter (fun nd => !(bone_order.contains nd.name))).flatMap
    (fun nd => process_bone rootCorrect eulerOf ratio nd)

theorem emitCurves_map (bone_name : String) :
    ∀ (chans : List (String × String × List MayaKeyframe)) (curve_index : ℕ),
      (∀ c ∈ chans, c.2.2 ≠ []) →
      (emitCurves bone_name chans curve_index).map itemIndexAttr =
        (List.enumFrom curve_index chans).map (fun p => (p.1, p.2.2.1)) := by
  intro chans
  induction chans with
  | nil => intro ci _; simp [emitCurves]
  | cons c rest ih =>
    intro ci hne
    obtain ⟨path, attr, keys⟩ := c
    have hk : keys ≠ [] := hne _ (List.mem_cons_self _ _)
    rw [emitCurves]
    rw [if_neg (by simpa using hk)]
    have hrest := ih (ci + 1) (fun c hc => hne c (List.mem_cons_of_mem _ hc))
    simp [itemIndexAttr, List.enumFrom_cons, hrest]

theorem emitCurves_all_curve (bone_name : String) :
    ∀ (chans : List (String × String × List MayaKeyframe)) (curve_index : ℕ),
      ∀ it ∈ emitCurves bone_name chans curve_index, itemIsCurve it = true := by
  intro chans
  induction chans with
  | nil => intro ci it hit; simp [emitCurves] at hit
  | cons c rest ih =>
    intro ci it hit
    obtain ⟨path, attr, keys⟩ := c
    rw [emitCurves] at hit
    by_cases hk : keys = []
    · exact ih ci it (by simpa [hk] using hit)
    · rcases List.mem_cons.mp (by simpa [hk] using hit) with h | h
      · rw [h]; rfl
      · exact ih (ci + 1) it h

theorem translationLoop_cons_ne_nil (ratio : ℚ) (axis : String)
    (is_root_bone : Bool) (t : Transform ℚ) (rest : List (Transform ℚ)) :
    translationLoop ratio axis is_root_bone (t :: rest) 0 (-1) ≠ [] := by
  rw [translationLoop]
  simp [int_trunc]

theorem scaleLoop_cons_ne_nil (ratio : ℚ) (axis : String)
    (is_root_bone : Bool) (t : Transform ℚ) (rest : List (Transform ℚ)) :
    scaleLoop ratio axis is_root_bone (t :: rest) 0 (-1) ≠ [] := by
  rw [scaleLoop]
  simp [int_trunc]

theorem rotationLoop_cons_ne_nil (ratio : ℚ) (is_root_bone : Bool)
    (eulerOf : Vector4 ℚ → Vector3 ℚ) (t : Transform ℚ) (rest : List (Transform ℚ)) :
    (rotationLoop ratio is_root_bone eulerOf (t :: rest) 0 (-1) 0 0 0).x ≠ [] ∧
    (rotationLoop ratio is_root_bone eulerOf (t :: rest) 0 (-1) 0 0 0).y ≠ [] ∧
    (rotationLoop ratio is_root_bone eulerOf (t :: rest) 0 (-1) 0 0 0).z ≠ [] := by
  rw [rotationLoop]
  simp [int_trunc]

theorem emitCurves_nine (bn p1 a1 p2 a2 p3 a3 p4 a4 p5 a5 p6 a6 p7 a7 p8 a8 p9 a9 : String)
    (k1 k2 k3 k4 k5 k6 k7 k8 k9 : List MayaKeyframe)
    (h1 : k1 ≠ []) (h2 : k2 ≠ []) (h3 : k3 ≠ []) (h4 : k4 ≠ []) (h5 : k5 ≠ [])
    (h6 : k6 ≠ []) (h7 : k7 ≠ []) (h8 : k8 ≠ []) (h9 : k9 ≠ []) :
    (emitCurves bn [(p1, a1, k1), (p2, a2, k2), (p3, a3, k3), (p4, a4, k4),
        (p5, a5, k5), (p6, a6, k6), (p7, a7, k7), (p8, a8, k8), (p9, a9, k9)] 0).map
      itemIndexAttr =
    [(0, a1), (1, a2), (2, a3), (3, a4), (4, a5), (5, a6), (6, a7), (7, a8), (8, a9)] := by
  have hne : ∀ c ∈ [(p1, a1, k1), (p2, a2, k2), (p3, a3, k3), (p4, a4, k4),
      (p5, a5, k5), (p6, a6, k6), (p7, a7, k7), (p8, a8, k8), (p9, a9, k9)],
      c.2.2 ≠ [] := by
    intro c hc
    simp only [List.mem_cons, List.not_mem_nil, or_false] at hc
    rcases hc with rfl | rfl | rfl | rfl | rfl | rfl | rfl | rfl | rfl
    exacts [h1, h2, h3, h4, h5, h6, h7, h8, h9]
  rw [emitCurves_map bn _ 0 hne]
  rfl

/-- **C10.** For every bone whose "Transform" track has a non-empty value
sequence and every target fps > 0, every one of the nine channels emits at
least one key (source frame 0 always maps to target frame 0 and is never
dropped, since the duplicate tracker starts at -1), so exactly nine curves
are emitted for that bone with indices 0 through 8 in the fixed channel
order — the channel-omission branch is never taken for a non-empty track. -/
theorem C10_nonempty_track_nine_curves (rootCorrect : Transform ℚ → Transform ℚ)
    (eulerOf : Vector4 ℚ → Vector3 ℚ) (maya_fps : ℚ) (node : Node ℚ) (tt : Track ℚ)
    (hfind : node.tracks.find?
      (fun t => t.name == "Transform" && !t.values.isEmpty) = some tt)
    (hfps : 0 < maya_fps) :
    (process_bone rootCorrect eulerOf (fps_conversion maya_fps) node).map itemIndexAttr =
      [(0, "translateX"), (1, "translateY"), (2, "translateZ"),
       (3, "rotateX"), (4, "rotateY"), (5, "rotateZ"),
       (6, "scaleX"), (7, "scaleY"), (8, "scaleZ")] ∧
    ∀ it ∈ process_bone rootCorrect eulerOf (fps_conversion maya_fps) node,
      itemIsCurve it = true := by
  have hp := List.find?_some hfind
  have hvne : tt.values ≠ [] := by
    simp only [Bool.and_eq_true] at hp
    simpa using hp.2
  have hprocessed : (if (node.name == "Trans") then tt.values.map rootCorrect
      else tt.values) ≠ [] := by
    split
    · simpa using hvne
    · exact hvne
  obtain ⟨v0, vrest, hv⟩ := List.exists_cons_of_ne_nil hprocessed
  simp only [process_bone, hfind]
  constructor
  · rw [show (if (node.name == "Trans") = true then tt.values.map rootCorrect
        else tt.values) = v0 :: vrest from hv]
    apply emitCurves_nine
    all_goals first
      | exact translationLoop_cons_ne_nil _ _ _ _ _
      | exact scaleLoop_cons_ne_nil _ _ _ _ _
      | exact (rotationLoop_cons_ne_nil _ _ _ _ _).1
      | exact (rotationLoop_cons_ne_nil _ _ _ _ _).2.1
      | exact (rotationLoop_cons_ne_nil _ _ _ _ _).2.2
  · intro it hit
    exact emitCurves_all_curve _ _ _ it hit

/-- A sample pose used by the concrete witnesses below. -/
def sampleTransform : Transform ℚ :=
  { translation := ⟨1, 2, 3⟩, rotation := ⟨0, 0, 0, 1⟩, scale := ⟨1, 1, 1⟩ }

/-- A sample one-frame "Transform" track. -/
def sampleTrack : Track ℚ :=
  { name := "Transform", compensate_scale := false, transform_flags := {},
    values := [sampleTransform] }

/-- A sample animated bone. -/
def sampleNode : Node ℚ :=
  { name := "Hip", tracks := [sampleTrack] }

/-- Witness for C10 at a concrete input. -/
theorem C10_nonempty_track_nine_curves_witness :
    sampleNode.tracks.find?
      (fun t => t.name == "Transform" && !t.values.isEmpty) = some sampleTrack ∧
    (0 : ℚ) < 30 ∧
    (process_bone id (fun _ => ⟨0, 0, 0⟩) (fps_conversion 30) sampleNode).map
        itemIndexAttr =
      [(0, "translateX"), (1, "translateY"), (2, "translateZ"),
       (3, "rotateX"), (4, "rotateY"), (5, "rotateZ"),
       (6, "scaleX"), (7, "scaleY"), (8, "scaleZ")] :=
  ⟨rfl, by norm_num,
    (C10_nonempty_track_nine_curves id (fun _ => ⟨0, 0, 0⟩) 30 sampleNode sampleTrack
      rfl (by norm_num)).1⟩

theorem process_bone_all_curve (rootCorrect : Transform ℚ → Transform ℚ)
    (eulerOf : Vector4 ℚ → Vector3 ℚ) (ratio : ℚ) (node : Node ℚ) :
    ∀ it ∈ process_bone rootCorrect eulerOf ratio node, itemIsCurve it = true := by
  intro it hit
  rcases hfind : node.tracks.find?
      (fun t => t.name == "Transform" && !t.values.isEmpty) with _ | tt
  · simp [process_bone, hfind] at hit
  · simp only [process_bone, hfind] at hit
    exact emitCurves_all_curve _ _ _ it hit

/-- A "Transform" track that is present but has an empty value sequence. -/
def emptyTransformTrack : Track ℚ :=
  { name := "Transform", compensate_scale := false, transform_flags := {},
    values := [] }

/-- A bone present in the animation dataset whose "Transform" track is
empty. -/
def emptyTrackNode : Node ℚ :=
  { name := "Root", tracks := [emptyTransformTrack] }

/-- **C2 counterexample.** A bone ("Root") that is present in the animation
dataset but whose "Transform" track has an empty value sequence produces NO
emission item at all — in particular no `PlaceholderBone` — contradicting
the claim that such a bone is treated identically to the no-track case. -/
theorem C2_counterexample :
    convert_emission ["Root"] [emptyTrackNode] id (fun _ => ⟨0, 0, 0⟩)
        (fps_conversion 30) = [] ∧
    EmissionItem.empty "Root" ∉
      convert_emission ["Root"] [emptyTrackNode] id (fun _ => ⟨0, 0, 0⟩)
        (fps_conversion 30) := by
  refine ⟨rfl, ?_⟩
  intro h
  rw [show convert_emission ["Root"] [emptyTrackNode] id (fun _ => ⟨0, 0, 0⟩)
      (fps_conversion 30) = [] from rfl] at h
  exact List.not_mem_nil _ h

/-- **C2 (amended).** A `PlaceholderBone` item is emitted exactly for the
skeleton-order bones that are absent from the animation dataset's node map;
a bone that is present in the dataset but whose "Transform" track is absent,
or present with an empty value sequence, emits nothing at all (neither
curves nor a placeholder). -/
theorem C2_placeholders_only_for_absent_bones (bone_order : List String)
    (all_nodes : List (Node ℚ)) (rootCorrect : Transform ℚ → Transform ℚ)
    (eulerOf : Vector4 ℚ → Vector3 ℚ) (ratio : ℚ) :
    (∀ bone_name ∈ bone_order,
      all_nodes.reverse.find? (fun nd => nd.name == bone_name) = none →
        EmissionItem.empty bone_name ∈
          convert_emission bone_order all_nodes rootCorrect eulerOf ratio) ∧
    (∀ node : Node ℚ,
      node.tracks.find? (fun t => t.name == "Transform" && !t.values.isEmpty) = none →
        process_bone rootCorrect eulerOf ratio node = []) ∧
    (∀ name, EmissionItem.empty name ∈
        convert_emission bone_order all_nodes rootCorrect eulerOf ratio →
      name ∈ bone_order ∧
        all_nodes.reverse.find? (fun nd => nd.name == name) = none) := by
  refine ⟨?_, ?_, ?_⟩
  · intro bone_name hbn hnone
    apply List.mem_append_left
    apply List.mem_flatMap.mpr
    refine ⟨bone_name, hbn, ?_⟩
    rw [hnone]
    simp
  · intro node hnone
    simp [process_bone, hnone]
  · intro name hmem
    rcases List.mem_append.mp hmem with h | h
    · obtain ⟨bn, hbn, hin⟩ := List.mem_flatMap.mp h
      rcases hfind : all_nodes.reverse.find? (fun nd => nd.name == bn) with _ | node
      · rw [hfind] at hin
        simp only [List.mem_singleton] at hin
        obtain rfl : name = bn := by
          cases hin
          rfl
        exact ⟨hbn, hfind⟩
      · rw [hfind] at hin
        have := process_bone_all_curve rootCorrect eulerOf ratio node _ hin
        simp [itemIsCurve] at this
    · obtain ⟨nd, _, hin⟩ := List.mem_flatMap.mp h
      have := process_bone_all_curve rootCorrect eulerOf ratio nd _ hin
      simp [itemIsCurve] at this

/-- A bone named "Root" carrying the sample track. -/
def rootNode : Node ℚ :=
  { name := "Root", tracks := [sampleTrack] }

/-- Witness for the amended C2 at a concrete input: skeleton
`["Root", "ArmL"]`, dataset containing only `"Root"` — a placeholder is
emitted for `"ArmL"`. -/
theorem C2_placeholders_only_for_absent_bones_witness :
    "ArmL" ∈ ["Root", "ArmL"] ∧
    ([rootNode].reverse.find? (fun nd => nd.name == "ArmL") = none) ∧
    EmissionItem.empty "ArmL" ∈
      convert_emission ["Root", "ArmL"] [rootNode] id (fun _ => ⟨0, 0, 0⟩)
        (fps_conversion 30) :=
  ⟨by simp, rfl,
    (C2_placeholders_only_for_absent_bones ["Root", "ArmL"] [rootNode] id
      (fun _ => ⟨0, 0, 0⟩) (fps_conversion 30)).1 "ArmL" (by simp) rfl⟩

/-- The `children_map` of `_topological_sort_bones`: the indices `i` whose
bone's `parent_index` equals `p`, in original list order (Python appends `i`
in increasing order of the enumerate loop). -/
def childrenOf (bones : List SkeletonBone) (p : ℕ) : List (Fin bones.length) :=
  (List.finRange bones.length).filter
    (fun i => decide ((bones.get i).parent_index = some p))

/-- `root_indices` of `_topological_sort_bones`: bones with no parent index,
in original order. -/
def rootIndices (bones : List SkeletonBone) : List (Fin bones.length) :=
  (List.finRange bones.length).filter
    (fun i => decide ((bones.get i).parent_index = none))

/-- The recursive `dfs` of `_topological_sort_bones`, written as the
equivalent explicit-stack pre-order traversal (pop a node; if unvisited,
mark it, emit it, and push its children in order ahead of the remaining
stack — exactly the order the Python recursion visits).  It emits bone
*indices*; `topological_sort_bones` maps them to names afterwards, which is
where the Python appends `bone_names[bone_index]` directly. -/
def dfs (bones : List SkeletonBone) :
    List (Fin bones.length) → Finset (Fin bones.length) →
    List (Fin bones.length) → Finset (Fin bones.length) × List (Fin bones.length)
  | [], visited, acc => (visited, acc)
  | i :: rest, visited, acc =>
    if i ∈ visited then dfs bones rest visited acc
    else dfs bones (childrenOf bones i ++ rest) (insert i visited) (acc ++ [i])
termination_by stack visited _ => ((Finset.univ \ visited).card, stack.length)
decreasing_by
  · apply Prod.Lex.right
    simp
  · apply Prod.Lex.left
    have hmem : i ∈ Finset.univ \ visited := by
      simp [Finset.mem_sdiff]
      assumption
    calc (Finset.univ \ insert i visited).card
        = ((Finset.univ \ visited).erase i).card := by
          rw [Finset.sdiff_insert]
      _ < (Finset.univ \ visited).card := Finset.card_erase_lt_of_mem hmem

/-- The DFS phase of `_topological_sort_bones`: start from all root bones in
original order, with empty visited set and empty output. -/
def dfsResult (bones : List SkeletonBone) :
    Finset (Fin bones.length) × List (Fin bones.length) :=
  dfs bones (rootIndices bones) ∅ []

/-- The `visited` set after the DFS phase. -/
def visitedSet (bones : List SkeletonBone) : Finset (Fin bones.length) :=
  (dfsResult bones).1

/-- The `sorted_order` after the DFS phase, as indices. -/
def dfsOrder (bones : List SkeletonBone) : List (Fin bones.length) :=
  (dfsResult bones).2

/-- The orphan pass of `_topological_sort_bones`: any index never visited is
appended at the end in original order. -/
def orphanIndices (bones : List SkeletonBone) : List (Fin bones.length) :=
  (List.finRange bones.length).filter (fun i => decide (i ∉ visitedSet bones))

/-- The full output order of `_topological_sort_bones`, as indices. -/
def sortedIndices (bones : List SkeletonBone) : List (Fin bones.length) :=
  dfsOrder bones ++ orphanIndices bones

/-- `converter.py` `_topological_sort_bones` (the emitted name list). -/
def topological_sort_bones (bones : List SkeletonBone) : List String :=
  (sortedIndices bones).map (fun i => (bones.get i).name)

theorem dfs_invariant (bones : List SkeletonBone) :
    ∀ (stack : List (Fin bones.length)) (visited : Finset (Fin bones.length))
      (acc : List (Fin bones.length)),
      ∃ l : List (Fin bones.length),
        (dfs bones stack visited acc).2 = acc ++ l ∧
        l.Nodup ∧
        (∀ x ∈ l, x ∉ visited) ∧
        (dfs bones stack visited acc).1 = visited ∪ l.toFinset := by
  intro stack visited acc
  induction stack, visited, acc using dfs.induct bones with
  | case1 visited acc =>
    exact ⟨[], by simp [dfs], by simp, by simp, by simp [dfs]⟩
  | case2 i rest visited acc hvis ih =>
    obtain ⟨l, h1, h2, h3, h4⟩ := ih
    refine ⟨l, ?_, h2, fun x hx => h3 x hx, ?_⟩
    · rw [dfs, if_pos hvis]
      exact h1
    · rw [dfs, if_pos hvis]
      exact h4
  | case3 i rest visited acc hvis ih =>
    obtain ⟨l, h1, h2, h3, h4⟩ := ih
    refine ⟨i :: l, ?_, ?_, ?_, ?_⟩
    · rw [dfs, if_neg hvis]
      simpa using h1
    · refine List.nodup_cons.mpr ⟨?_, h2⟩
      intro hmem
      exact (h3 i hmem) (Finset.mem_insert_self i visited)
    · intro x hx
      rcases List.mem_cons.mp hx with rfl | hx
      · exact hvis
      · intro hxv
        exact (h3 x hx) (Finset.mem_insert_of_mem hxv)
    · rw [dfs, if_neg hvis, h4]
      ext y
      simp [Finset.mem_insert, Finset.mem_union]

theorem dfs_parent_invariant (bones : List SkeletonBone) :
    ∀ (stack : List (Fin bones.length)) (visited : Finset (Fin bones.length))
      (acc : List (Fin bones.length)),
      (∀ j ∈ stack, ∀ q : Fin bones.length,
        (bones.get j).parent_index = some (q : ℕ) → q ∈ visited) →
      visited = acc.toFinset →
      acc.Nodup →
      (∀ (b q : Fin bones.length), (bones.get b).parent_index = some (q : ℕ) →
        b ∈ acc → q ∈ acc ∧ acc.indexOf q < acc.indexOf b) →
      ∀ (b q : Fin bones.length), (bones.get b).parent_index = some (q : ℕ) →
        b ∈ (dfs bones stack visited acc).2 →
        q ∈ (dfs bones stack visited acc).2 ∧
          (dfs bones stack visited acc).2.indexOf q <
            (dfs bones stack visited acc).2.indexOf b := by
  intro stack visited acc
  induction stack, visited, acc using dfs.induct bones with
  | case1 visited acc =>
    intro _ _ _ hgood
    rw [dfs]
    exact hgood
  | case2 i rest visited acc hvis ih =>
    intro hstack hsync hnodup hgood
    rw [dfs, if_pos hvis]
    exact ih (fun j hj => hstack j (List.mem_cons_of_mem _ hj)) hsync hnodup hgood
  | case3 i rest visited acc hvis ih =>
    intro hstack hsync hnodup hgood
    have hiacc : i ∉ acc := fun hmem => hvis (hsync ▸ List.mem_toFinset.mpr hmem)
    rw [dfs, if_neg hvis]
    apply ih
    · intro j hj q hq
      rcases List.mem_append.mp hj with hj | hj
      · have hpj : (bones.get j).parent_index = some (i : ℕ) := by
          have := List.of_mem_filter hj
          simpa using this
        rw [hpj] at hq
        have hqi : q = i := Fin.ext (by exact_mod_cast (Option.some_injective _ hq).symm)
        rw [hqi]
        exact Finset.mem_insert_self _ _
      · exact Finset.mem_insert_of_mem (hstack j (List.mem_cons_of_mem _ hj) q hq)
    · rw [hsync]
      ext y
      simp [Or.comm]
    · simp [List.nodup_append, hnodup, hiacc]
    · intro b q hq hb
      rcases List.mem_append.mp hb with hb | hb
      · obtain ⟨hqacc, hlt⟩ := hgood b q hq hb
        refine ⟨List.mem_append_left _ hqacc, ?_⟩
        rw [List.indexOf_append_of_mem hqacc, List.indexOf_append_of_mem hb]
        exact hlt
      · have hbi : b = i := by simpa using hb
        subst hbi
        have hqv : q ∈ visited := hstack b (List.mem_cons_self _ _) q hq
        have hqacc : q ∈ acc := List.mem_toFinset.mp (hsync ▸ hqv)
        refine ⟨List.mem_append_left _ hqacc, ?_⟩
        rw [List.indexOf_append_of_mem hqacc, List.indexOf_append_of_not_mem hiacc]
        calc acc.indexOf q < acc.length := List.indexOf_lt_length.mpr hqacc
          _ ≤ acc.length + List.indexOf b [b] := Nat.le_add_right _ _

theorem rootIndices_no_parent (bones : List SkeletonBone) :
    ∀ j ∈ rootIndices bones, ∀ q : Fin bones.length,
      (bones.get j).parent_index = some (q : ℕ) → False := by
  intro j hj q hq
  have := List.of_mem_filter hj
  simp only [decide_eq_true_eq] at this
  rw [this] at hq
  exact Option.noConfusion hq

theorem dfsOrder_parent_before (bones : List SkeletonBone)
    (b q : Fin bones.length)
    (hq : (bones.get b).parent_index = some (q : ℕ))
    (hb : b ∈ dfsOrder bones) :
    q ∈ dfsOrder bones ∧
      (dfsOrder bones).indexOf q < (dfsOrder bones).indexOf b := by
  have := dfs_parent_invariant bones (rootIndices bones) ∅ []
    (fun j hj q hq => absurd hq (fun hq => rootIndices_no_parent bones j hj q hq))
    (by simp) (by simp) (by simp)
  exact this b q hq hb

/-- The C4 claim as stated, at a given skeleton: every bone whose
`parent_index` designates a bone `p` appears strictly after `p` in the
resolver's output ordering. -/
def parentBeforeChild (bones : List SkeletonBone) : Prop :=
  ∀ (b p : Fin bones.length),
    (bones.get b).parent_index = some (p : ℕ) →
    (sortedIndices bones).indexOf p < (sortedIndices bones).indexOf b

/-- A two-bone skeleton with a mutually-cyclic parent chain. -/
def cyclic2 : List SkeletonBone := [⟨"A", some 1⟩, ⟨"B", some 0⟩]

theorem sortedIndices_cyclic2 :
    sortedIndices cyclic2 = [⟨0, by decide⟩, ⟨1, by decide⟩] := by
  have h1 : dfsResult cyclic2 = (∅, []) := by
    rw [dfsResult]
    rw [show rootIndices cyclic2 = [] from rfl]
    simp [dfs]
  rw [sortedIndices, dfsOrder, orphanIndices, visitedSet, h1]
  decide

/-- **C4 counterexample.** On the mutually-cyclic skeleton
`[A (parent 1), B (parent 0)]` both bones are orphans, appended in original
order; the output is `["A", "B"]`, yet A's `parent_index` designates B, so
the parent appears strictly *after* its child and the claim (quantified over
every input skeleton, malformed ones included) fails. -/
theorem C4_counterexample_cyclic :
    topological_sort_bones cyclic2 = ["A", "B"] ∧
    (cyclic2.get ⟨0, by decide⟩).parent_index = some 1 ∧
    (cyclic2.get ⟨1, by decide⟩).name = "B" ∧
    ¬ parentBeforeChild cyclic2 := by
  refine ⟨?_, rfl, rfl, ?_⟩
  · rw [topological_sort_bones, sortedIndices_cyclic2]
    rfl
  · intro h
    have h01 := h ⟨0, by decide⟩ ⟨1, by decide⟩ rfl
    rw [sortedIndices_cyclic2] at h01
    exact absurd h01 (by decide)

/-- **C4 (amended).** For every input skeleton (malformed ones included),
for every bone `b` whose `parent_index` designates a bone `p`, **if `b` is
emitted during the depth-first phase** (i.e. it is visited, not an orphan
appended afterwards), then `p` is also emitted during that phase and appears
strictly before `b` in the resolver's output ordering. -/
theorem C4_parent_before_child_amended (bones : List SkeletonBone)
    (b p : Fin bones.length)
    (hp : (bones.get b).parent_index = some (p : ℕ))
    (hb : b ∈ dfsOrder bones) :
    p ∈ dfsOrder bones ∧
      (sortedIndices bones).indexOf p < (sortedIndices bones).indexOf b := by
  obtain ⟨hq, hlt⟩ := dfsOrder_parent_before bones b p hp hb
  refine ⟨hq, ?_⟩
  unfold sortedIndices
  rw [List.indexOf_append_of_mem hq, List.indexOf_append_of_mem hb]
  exact hlt

/-- A well-formed two-bone skeleton: a root and its child. -/
def chain2 : List SkeletonBone := [⟨"Root", none⟩, ⟨"Child", some 0⟩]

theorem dfsResult_chain2 :
    dfsResult chain2 =
      (({⟨0, by decide⟩, ⟨1, by decide⟩} : Finset (Fin chain2.length)),
        [⟨0, by decide⟩, ⟨1, by decide⟩]) := by
  rw [dfsResult]
  rw [show rootIndices chain2 = [⟨0, by decide⟩] from rfl]
  simp only [dfs,
    show ((⟨0, by decide⟩ : Fin chain2.length) : ℕ) = 0 from rfl,
    show ((⟨1, by decide⟩ : Fin chain2.length) : ℕ) = 1 from rfl,
    show childrenOf chain2 0 = [⟨1, by decide⟩] from rfl,
    show childrenOf chain2 1 = [] from rfl,
    List.nil_append, List.append_nil]
  rw [if_neg (by decide), if_neg (by decide)]
  simp [dfs]
  exact Finset.pair_comm _ _

/-- Witness for the amended C4: in the two-bone chain skeleton, the child is
visited by the DFS and its parent (the root) comes strictly before it. -/
theorem C4_parent_before_child_amended_witness :
    (chain2.get ⟨1, by decide⟩).parent_index =
      some ((⟨0, by decide⟩ : Fin chain2.length) : ℕ) ∧
    (⟨1, by decide⟩ : Fin chain2.length) ∈ dfsOrder chain2 ∧
    ((⟨0, by decide⟩ : Fin chain2.length) ∈ dfsOrder chain2 ∧
      (sortedIndices chain2).indexOf ⟨0, by decide⟩ <
        (sortedIndices chain2).indexOf ⟨1, by decide⟩) := by
  have hb : (⟨1, by decide⟩ : Fin chain2.length) ∈ dfsOrder chain2 := by
    rw [dfsOrder, dfsResult_chain2]
    decide
  exact ⟨rfl, hb,
    C4_parent_before_child_amended chain2 ⟨1, by decide⟩ ⟨0, by decide⟩ rfl hb⟩

/-- **C5.** For every skeleton bone list — including one containing a
self-referential or mutually-cyclic parent chain — the hierarchy resolver
terminates (it is a total function) and its output contains the name of
every input bone exactly once: the output is a permutation of the input
name list (visited bones via depth-first traversal, unvisited orphans
appended afterward in original order). -/
theorem C5_resolver_output_is_permutation (bones : List SkeletonBone) :
    (topological_sort_bones bones).Perm (bones.map (fun b => b.name)) := by
  obtain ⟨l, h1, h2, h3, h4⟩ := dfs_invariant bones (rootIndices bones) ∅ []
  have hord : dfsOrder bones = l := by
    rw [dfsOrder, dfsResult, h1]
    simp
  have hvis : visitedSet bones = l.toFinset := by
    rw [visitedSet, dfsResult, h4]
    simp
  have hnodup : (sortedIndices bones).Nodup := by
    rw [sortedIndices, hord]
    refine List.Nodup.append h2 (List.Nodup.filter _ (List.nodup_finRange _)) ?_
    intro x hxl hxo
    have := List.of_mem_filter hxo
    rw [hvis] at this
    simp only [decide_eq_true_eq] at this
    exact this (List.mem_toFinset.mpr hxl)
  have hmem : ∀ x : Fin bones.length, x ∈ sortedIndices bones := by
    intro x
    rw [sortedIndices, hord]
    by_cases hx : x ∈ l
    · exact List.mem_append_left _ hx
    · refine List.mem_append_right _ ?_
      refine List.mem_filter.mpr ⟨List.mem_finRange x, ?_⟩
      rw [hvis]
      simpa using hx
  have hperm : (sortedIndices bones).Perm (List.finRange bones.length) := by
    rw [List.perm_ext_iff_of_nodup hnodup (List.nodup_finRange _)]
    intro a
    simp [hmem a, List.mem_finRange]
  have := hperm.map (fun i => (bones.get i).name)
  rw [topological_sort_bones]
  refine this.trans (List.Perm.of_eq ?_)
  rw [show (fun i : Fin bones.length => (bones.get i).name) =
    ((fun b : SkeletonBone => b.name) ∘ bones.get) from rfl]
  rw [← List.map_map, List.finRange_map_get]

/-- The decoded skeleton JSON structure: a mapping that may or may not
contain the `bones` key (`none` models a missing key). -/
structure SkeletonData where
  bones : Option (List SkeletonBone)

/-- `converter.py` `_load_skeleton_bone_order`, after the file has been read
and JSON-decoded (file-system and JSON-syntax errors are outside this
model): if the `bones` key is absent the function returns an empty list
(`if 'bones' not in skeleton_data: return []`); otherwise it sorts the
bones by hierarchy.  `Except String` is the model's channel for a fatal
error (a raised exception); note that this code path never produces one. -/
def load_skeleton_bone_order (skeleton_data : SkeletonData) :
    Except String (List String) :=
  match skeleton_data.bones with
  | none => Except.ok []
  | some bones => Except.ok (topological_sort_bones bones)

/-- **C8 counterexample.** A decoded skeleton structure lacking the `bones`
key makes skeleton loading return successfully with an empty bone order —
it does not fail fatally, contradicting the claim. -/
theorem C8_counterexample_missing_bones_key :
    load_skeleton_bone_order ⟨none⟩ = Except.ok [] ∧
    ∀ msg, load_skeleton_bone_order ⟨none⟩ ≠ Except.error msg :=
  ⟨rfl, fun _ h => Except.noConfusion h⟩

/-- **C8 (amended).** For every decoded skeleton structure that lacks the
required `bones` key, skeleton loading returns an empty bone order and the
conversion proceeds (every animated bone is then treated as absent from the
skeleton); loading does not abort. -/
theorem C8_missing_bones_key_yields_empty_order (d : SkeletonData)
    (h : d.bones = none) :
    load_skeleton_bone_order d = Except.ok [] := by
  simp [load_skeleton_bone_order, h]

/-- Witness for the amended C8 at the concrete structure with no `bones`
key. -/
theorem C8_missing_bones_key_yields_empty_order_witness :
    (SkeletonData.mk none).bones = none ∧
    load_skeleton_bone_order ⟨none⟩ = Except.ok [] :=
  ⟨rfl, C8_missing_bones_key_yields_empty_order ⟨none⟩ rfl⟩

/-- `min(acc, v)` where `acc` may still be `float('inf')` (modelled as
`none`). -/
def optMin (o : Option ℤ) (v : ℤ) : Option ℤ :=
  some (match o with | none => v | some m => min m v)

/-- `max(acc, v)` where `acc` may still be `float('-inf')` (modelled as
`none`). -/
def optMax (o : Option ℤ) (v : ℤ) : Option ℤ :=
  some (match o with | none => v | some m => max m v)

/-- The `for curve in self.curves` loop of `_calculate_time_range`:
`min_frame`/`max_frame` start at ±infinity (modelled as `none`); a curve
updates them with the min/max of its key frames only when it has keys. -/
def timeRangeLoop : List MayaAnimCurve → Option ℤ → Option ℤ → Option ℤ × Option ℤ
  | [], min_frame, max_frame => (min_frame, max_frame)
  | c :: rest, min_frame, max_frame =>
    match c.keys with
    | [] => timeRangeLoop rest min_frame max_frame
    | k :: ks =>
      timeRangeLoop rest
        (optMin min_frame ((ks.map (fun x => x.frame)).foldl min k.frame))
        (optMax max_frame ((ks.map (fun x => x.frame)).foldl max k.frame))

/-- `maya_writer.py` `_calculate_time_range`: `(0, 0)` when there are no
curves at all, `(0, 1)` when no curve has any key (the accumulators were
never updated), otherwise the overall min/max frame. -/
def calculate_time_range (curves : List MayaAnimCurve) : ℤ × ℤ :=
  if curves.isEmpty then (0, 0)
  else
    match timeRangeLoop curves none none with
    | (some mn, some mx) => (mn, mx)
    | _ => (0, 1)

/-- All key frames of all curves, in emission order. -/
def allFrames (curves : List MayaAnimCurve) : List ℤ :=
  curves.flatMap (fun c => c.keys.map (fun k => k.frame))

theorem foldl_optMin_some (l : List ℤ) :
    ∀ m : ℤ, l.foldl optMin (some m) = some (l.foldl min m) := by
  induction l with
  | nil => intro m; rfl
  | cons a l ih =>
    intro m
    show l.foldl optMin (optMin (some m) a) = _
    rw [show optMin (some m) a = some (min m a) from rfl, ih]
    rfl

theorem foldl_optMax_some (l : List ℤ) :
    ∀ m : ℤ, l.foldl optMax (some m) = some (l.foldl max m) := by
  induction l with
  | nil => intro m; rfl
  | cons a l ih =>
    intro m
    show l.foldl optMax (optMax (some m) a) = _
    rw [show optMax (some m) a = some (max m a) from rfl, ih]
    rfl

theorem foldl_min_init (l : List ℤ) :
    ∀ m a : ℤ, l.foldl min (min m a) = min m (l.foldl min a) := by
  induction l with
  | nil => intro m a; rfl
  | cons b l ih =>
    intro m a
    show l.foldl min (min (min m a) b) = min m (l.foldl min (min a b))
    rw [min_assoc, ih]

theorem foldl_max_init (l : List ℤ) :
    ∀ m a : ℤ, l.foldl max (max m a) = max m (l.foldl max a) := by
  induction l with
  | nil => intro m a; rfl
  | cons b l ih =>
    intro m a
    show l.foldl max (max (max m a) b) = max m (l.foldl max (max a b))
    rw [max_assoc, ih]

theorem timeRangeLoop_spec :
    ∀ (curves : List MayaAnimCurve) (mn mx : Option ℤ),
      timeRangeLoop curves mn mx =
        ((allFrames curves).foldl optMin mn, (allFrames curves).foldl optMax mx) := by
  intro curves
  induction curves with
  | nil => intro mn mx; rfl
  | cons c rest ih =>
    intro mn mx
    rw [timeRangeLoop]
    cases hk : c.keys with
    | nil =>
      rw [ih]
      simp [allFrames, hk]
    | cons k ks =>
      dsimp only
      rw [ih]
      have hall : allFrames (c :: rest) =
          (k.frame :: ks.map (fun x => x.frame)) ++ allFrames rest := by
        simp [allFrames, hk]
      rw [hall, List.foldl_append, List.foldl_append]
      congr 1
      · congr 1
        show _ = (ks.map (fun x => x.frame)).foldl optMin (optMin mn k.frame)
        cases mn with
        | none =>
          rw [show optMin none k.frame = some k.frame from rfl, foldl_optMin_some]
          rfl
        | some m =>
          rw [show optMin (some m) k.frame = some (min m k.frame) from rfl,
            foldl_optMin_some, foldl_min_init]
          rfl
      · congr 1
        show _ = (ks.map (fun x => x.frame)).foldl optMax (optMax mx k.frame)
        cases mx with
        | none =>
          rw [show optMax none k.frame = some k.frame from rfl, foldl_optMax_some]
          rfl
        | some m =>
          rw [show optMax (some m) k.frame = some (max m k.frame) from rfl,
            foldl_optMax_some, foldl_max_init]
          rfl

/-- A curve whose keys span frames 0 to 59. -/
def exampleCurveA : MayaAnimCurve :=
  { attribute_path := "translate.translateX", attribute_name := "translateX",
    object_name := "Root", input_type := 0, output_type := 0, index := 0,
    keys := [{ frame := 0, value := 0 }, { frame := 59, value := 1 }] }

/-- A curve whose keys span frames 3 to 47. -/
def exampleCurveB : MayaAnimCurve :=
  { attribute_path := "translate.translateY", attribute_name := "translateY",
    object_name := "Root", input_type := 0, output_type := 0, index := 1,
    keys := [{ frame := 3, value := 0 }, { frame := 47, value := 1 }] }

/-- **C9.** The header's `startTime`/`endTime` equal the minimum and maximum
key frame across all emitted curves (placeholders are not part of
`self.curves`): `(0, 0)` if no curves exist; `(0, 1)` if curves exist but
none has any key; otherwise `(min, max)` over all frames.  In particular,
with curves spanning frames `[0, 59]` and `[3, 47]`, the range is
`(0, 59)`. -/
theorem C9_time_range (curves : List MayaAnimCurve) :
    (curves = [] → calculate_time_range curves = (0, 0)) ∧
    (curves ≠ [] → (∀ c ∈ curves, c.keys = []) →
      calculate_time_range curves = (0, 1)) ∧
    (∀ mn mx : ℤ, (allFrames curves).min? = some mn →
      (allFrames curves).max? = some mx →
      calculate_time_range curves = (mn, mx)) ∧
    calculate_time_range [exampleCurveA, exampleCurveB] = (0, 59) := by
  refine ⟨?_, ?_, ?_, by decide⟩
  · intro h
    rw [h]
    rfl
  · intro hne hkeys
    have hall : allFrames curves = [] := by
      simp only [allFrames, List.flatMap_eq_nil_iff]
      intro c hc
      simp [hkeys c hc]
    rw [calculate_time_range, if_neg (by simpa using hne), timeRangeLoop_spec,
      hall]
    rfl
  · intro mn mx hmn hmx
    have hne : allFrames curves ≠ [] := by
      intro h
      rw [h] at hmn
      exact Option.noConfusion hmn
    obtain ⟨a, l, hal⟩ := List.exists_cons_of_ne_nil hne
    have hcne : curves ≠ [] := by
      intro h
      rw [h] at hal
      exact List.noConfusion hal
    rw [calculate_time_range, if_neg (by simpa using hcne), timeRangeLoop_spec,
      hal]
    rw [show (a :: l).foldl optMin none = some (l.foldl min a) by
      show l.foldl optMin (optMin none a) = _
      rw [show optMin none a = some a from rfl, foldl_optMin_some]]
    rw [show (a :: l).foldl optMax none = some (l.foldl max a) by
      show l.foldl optMax (optMax none a) = _
      rw [show optMax none a = some a from rfl, foldl_optMax_some]]
    rw [hal] at hmn hmx
    rw [show (a :: l).min? = some (l.foldl min a) from rfl] at hmn
    rw [show (a :: l).max? = some (l.foldl max a) from rfl] at hmx
    rw [Option.some_injective _ hmn, Option.some_injective _ hmx]

/-- Witness for C9 applying the general branches at concrete inputs. -/
theorem C9_time_range_witness :
    ([] : List MayaAnimCurve) = [] ∧
    calculate_time_range [] = (0, 0) ∧
    (allFrames [exampleCurveA]).min? = some 0 ∧
    (allFrames [exampleCurveA]).max? = some 59 ∧
    calculate_time_range [exampleCurveA] = (0, 59) :=
  ⟨rfl, (C9_time_range []).1 rfl, by decide, by decide,
    (C9_time_range [exampleCurveA]).2.2.1 0 59 (by decide) (by decide)⟩

/-- Witness for C6: at fps 30 on the sample track the translation curve's
frames are strictly increasing. -/
theorem C6_frame_mapping_and_duplicate_elision_witness :
    (0 : ℚ) < 30 ∧
    List.Chain' frameLt
      (create_translation_keys (fps_conversion 30) sampleTrack "x" false) :=
  ⟨by norm_num,
    (C6_frame_mapping_and_duplicate_elision 30 sampleTrack "x" false
      (fun _ => ⟨0, 0, 0⟩) (by norm_num)).2.1⟩

/-!
## Real-valued embedding of the `math_utils.py` trigonometric kernels

Python floats are modelled by exact reals here; the claims settled against
these definitions (C3) concern exact values that the floating-point code
reaches up to rounding noise far below every tolerance involved.
-/

noncomputable section

open Real

/-- `np.arctan2` (four-quadrant arctangent), as called by `quat_to_euler`. -/
noncomputable def arctan2 (y x : ℝ) : ℝ :=
  if 0 < x then Real.arctan (y / x)
  else if x < 0 then
    (if 0 ≤ y then Real.arctan (y / x) + π else Real.arctan (y / x) - π)
  else
    (if 0 < y then π / 2 else if y < 0 then -(π / 2) else 0)

/-- `np.degrees`. -/
noncomputable def degrees (θ : ℝ) : ℝ := θ * 180 / π

/-- `np.radians`. -/
noncomputable def radians (d : ℝ) : ℝ := d * π / 180

/-- `math_utils.py` `quat_to_euler` for the only supported order, XYZ:
normalise (returning zero for a near-zero quaternion), build the rotation
matrix, then extract angles, selecting the singular branch when
`sqrt(m00² + m10²) < 1e-6`; results in degrees. -/
noncomputable def quat_to_euler (q : Vector4 ℝ) : Vector3 ℝ :=
  let norm := Real.sqrt (q.x * q.x + q.y * q.y + q.z * q.z + q.w * q.w)
  if norm < 1e-10 then ⟨0, 0, 0⟩
  else
    let x := q.x / norm
    let y := q.y / norm
    let z := q.z / norm
    let w := q.w / norm
    let m00 := 1 - 2 * (y * y + z * z)
    let m10 := 2 * (x * y + w * z)
    let m20 := 2 * (x * z - w * y)
    let m21 := 2 * (y * z + w * x)
    let m22 := 1 - 2 * (x * x + y * y)
    let m11 := 1 - 2 * (x * x + z * z)
    let m12 := 2 * (y * z - w * x)
    let sy := Real.sqrt (m00 ^ 2 + m10 ^ 2)
    if sy < 1e-6 then
      ⟨degrees (arctan2 (-m12) m11), degrees (arctan2 (-m20) sy), degrees 0⟩
    else
      ⟨degrees (arctan2 m21 m22), degrees (arctan2 (-m20) sy), degrees (arctan2 m10 m00)⟩

/-- `math_utils.py` `quat_multiply` (Hamilton product, x-y-z-w storage). -/
noncomputable def quat_multiply (q1 q2 : Vector4 ℝ) : Vector4 ℝ :=
  ⟨q1.w * q2.x + q1.x * q2.w + q1.y * q2.z - q1.z * q2.y,
   q1.w * q2.y - q1.x * q2.z + q1.y * q2.w + q1.z * q2.x,
   q1.w * q2.z + q1.x * q2.y - q1.y * q2.x + q1.z * q2.w,
   q1.w * q2.w - q1.x * q2.x - q1.y * q2.y - q1.z * q2.z⟩

/-- `math_utils.py` `axis_angle_to_quat`. -/
noncomputable def axis_angle_to_quat (axis : Vector3 ℝ) (angle_deg : ℝ) : Vector4 ℝ :=
  let angle_rad := radians angle_deg
  let half_angle := angle_rad / 2
  let s := Real.sin half_angle
  let c := Real.cos half_angle
  ⟨axis.x * s, axis.y * s, axis.z * s, c⟩

/-- A 4×4 real matrix with explicit entries (numpy arrays in the source). -/
structure Mat4 where
  m00 : ℝ
  m01 : ℝ
  m02 : ℝ
  m03 : ℝ
  m10 : ℝ
  m11 : ℝ
  m12 : ℝ
  m13 : ℝ
  m20 : ℝ
  m21 : ℝ
  m22 : ℝ
  m23 : ℝ
  m30 : ℝ
  m31 : ℝ
  m32 : ℝ
  m33 : ℝ

/-- Matrix product (the `@` operator on 4×4 numpy arrays). -/
noncomputable def Mat4.mul (A B : Mat4) : Mat4 :=
  ⟨A.m00 * B.m00 + A.m01 * B.m10 + A.m02 * B.m20 + A.m03 * B.m30,
   A.m00 * B.m01 + A.m01 * B.m11 + A.m02 * B.m21 + A.m03 * B.m31,
   A.m00 * B.m02 + A.m01 * B.m12 + A.m02 * B.m22 + A.m03 * B.m32,
   A.m00 * B.m03 + A.m01 * B.m13 + A.m02 * B.m23 + A.m03 * B.m33,
   A.m10 * B.m00 + A.m11 * B.m10 + A.m12 * B.m20 + A.m13 * B.m30,
   A.m10 * B.m01 + A.m11 * B.m11 + A.m12 * B.m21 + A.m13 * B.m31,
   A.m10 * B.m02 + A.m11 * B.m12 + A.m12 * B.m22 + A.m13 * B.m32,
   A.m10 * B.m03 + A.m11 * B.m13 + A.m12 * B.m23 + A.m13 * B.m33,
   A.m20 * B.m00 + A.m21 * B.m10 + A.m22 * B.m20 + A.m23 * B.m30,
   A.m20 * B.m01 + A.m21 * B.m11 + A.m22 * B.m21 + A.m23 * B.m31,
   A.m20 * B.m02 + A.m21 * B.m12 + A.m22 * B.m22 + A.m23 * B.m32,
   A.m20 * B.m03 + A.m21 * B.m13 + A.m22 * B.m23 + A.m23 * B.m33,
   A.m30 * B.m00 + A.m31 * B.m10 + A.m32 * B.m20 + A.m33 * B.m30,
   A.m30 * B.m01 + A.m31 * B.m11 + A.m32 * B.m21 + A.m33 * B.m31,
   A.m30 * B.m02 + A.m31 * B.m12 + A.m32 * B.m22 + A.m33 * B.m32,
   A.m30 * B.m03 + A.m31 * B.m13 + A.m32 * B.m23 + A.m33 * B.m33⟩

/-- `math_utils.py` `build_matrix4x4`: rotation matrix from the quaternion,
columns scaled by `s` (numpy broadcasting `rot_mat * [s.x, s.y, s.z]`),
translation in the last column. -/
noncomputable def build_matrix4x4 (t : Vector3 ℝ) (r : Vector4 ℝ) (s : Vector3 ℝ) : Mat4 :=
  let x := r.x
  let y := r.y
  let z := r.z
  let w := r.w
  ⟨(1 - 2 * (y * y + z * z)) * s.x, 2 * (x * y - z * w) * s.y, 2 * (x * z + y * w) * s.z, t.x,
   2 * (x * y + z * w) * s.x, (1 - 2 * (x * x + z * z)) * s.y, 2 * (y * z - x * w) * s.z, t.y,
   2 * (x * z - y * w) * s.x, 2 * (y * z + x * w) * s.y, (1 - 2 * (x * x + y * y)) * s.z, t.z,
   0, 0, 0, 1⟩

/-- The literal `R_X_90` array of `_apply_root_correction`. -/
def R_X_90 : Mat4 :=
  ⟨1, 0, 0, 0,
   0, 0, -1, 0,
   0, 1, 0, 0,
   0, 0, 0, 1⟩

/-- The literal `R_Z_N90` array of `_apply_root_correction`. -/
def R_Z_N90 : Mat4 :=
  ⟨0, 1, 0, 0,
   -1, 0, 0, 0,
   0, 0, 1, 0,
   0, 0, 0, 1⟩

/-- `converter.py` `_apply_root_correction`: rotation via
`Q_corr = Q_X_90 * (Q_raw * Q_Z_N90)`, translation read off
`R_X_90 @ M_ssbh @ R_Z_N90`, scale passed through. -/
noncomputable def apply_root_correction (raw_transform : Transform ℝ) : Transform ℝ :=
  let T := raw_transform.translation
  let R := raw_transform.rotation
  let S := raw_transform.scale
  let Q_X_90 := axis_angle_to_quat ⟨1, 0, 0⟩ 90
  let Q_Z_N90 := axis_angle_to_quat ⟨0, 0, 1⟩ (-90)
  let Q_temp := quat_multiply R Q_Z_N90
  let Q_corr := quat_multiply Q_X_90 Q_temp
  let M_ssbh := build_matrix4x4 T R S
  let M_corr := Mat4.mul (Mat4.mul R_X_90 M_ssbh) R_Z_N90
  let T_corr : Vector3 ℝ := ⟨M_corr.m03, M_corr.m13, M_corr.m23⟩
  ⟨T_corr, Q_corr, S⟩

theorem axis_angle_X90_eval :
    axis_angle_to_quat ⟨1, 0, 0⟩ 90 = ⟨Real.sqrt 2 / 2, 0, 0, Real.sqrt 2 / 2⟩ := by
  unfold axis_angle_to_quat
  have h : radians 90 / 2 = π / 4 := by
    unfold radians
    ring
  simp only [h, Real.sin_pi_div_four, Real.cos_pi_div_four]
  simp

theorem axis_angle_ZN90_eval :
    axis_angle_to_quat ⟨0, 0, 1⟩ (-90) = ⟨0, 0, -(Real.sqrt 2 / 2), Real.sqrt 2 / 2⟩ := by
  unfold axis_angle_to_quat
  have h : radians (-90) / 2 = -(π / 4) := by
    unfold radians
    ring
  simp only [h, Real.sin_neg, Real.cos_neg, Real.sin_pi_div_four, Real.cos_pi_div_four]
  simp

theorem quat_multiply_identity_left (q : Vector4 ℝ) :
    quat_multiply ⟨0, 0, 0, 1⟩ q = q := by
  simp [quat_multiply]

theorem q_corr_eval :
    quat_multiply (axis_angle_to_quat ⟨1, 0, 0⟩ 90)
      (quat_multiply ⟨0, 0, 0, 1⟩ (axis_angle_to_quat ⟨0, 0, 1⟩ (-90))) =
      ⟨1 / 2, 1 / 2, -(1 / 2), 1 / 2⟩ := by
  rw [quat_multiply_identity_left, axis_angle_X90_eval, axis_angle_ZN90_eval]
  unfold quat_multiply
  have h2 : Real.sqrt 2 * Real.sqrt 2 = 2 := Real.mul_self_sqrt (by norm_num)
  simp only [Vector4.mk.injEq]
  refine ⟨?_, ?_, ?_, ?_⟩ <;>
    first
      | linear_combination h2 / 4
      | linear_combination -h2 / 4

theorem quat_to_euler_corr_eval :
    quat_to_euler ⟨1 / 2, 1 / 2, -(1 / 2), 1 / 2⟩ = ⟨90, 90, 0⟩ := by
  unfold quat_to_euler
  have hn : Real.sqrt ((1 / 2 : ℝ) * (1 / 2) + 1 / 2 * (1 / 2) +
      -(1 / 2) * -(1 / 2) + 1 / 2 * (1 / 2)) = 1 := by
    rw [show ((1 / 2 : ℝ) * (1 / 2) + 1 / 2 * (1 / 2) +
      -(1 / 2) * -(1 / 2) + 1 / 2 * (1 / 2)) = 1 by norm_num]
    exact Real.sqrt_one
  simp only [hn]
  rw [if_neg (by norm_num)]
  simp only [div_one]
  have hsy : Real.sqrt ((1 - 2 * ((1 / 2 : ℝ) * (1 / 2) + -(1 / 2) * -(1 / 2))) ^ 2 +
      (2 * (1 / 2 * (1 / 2) + 1 / 2 * -(1 / 2))) ^ 2) = 0 := by
    rw [show ((1 - 2 * ((1 / 2 : ℝ) * (1 / 2) + -(1 / 2) * -(1 / 2))) ^ 2 +
      (2 * (1 / 2 * (1 / 2) + 1 / 2 * -(1 / 2))) ^ 2) = 0 by norm_num]
    exact Real.sqrt_zero
  simp only [hsy]
  rw [if_pos (by norm_num)]
  have ha1 : arctan2 (-(2 * ((1 / 2 : ℝ) * -(1 / 2) - 1 / 2 * (1 / 2))))
      (1 - 2 * (1 / 2 * (1 / 2) + -(1 / 2) * -(1 / 2))) = π / 2 := by
    rw [show (-(2 * ((1 / 2 : ℝ) * -(1 / 2) - 1 / 2 * (1 / 2)))) = 1 by norm_num,
      show (1 - 2 * ((1 / 2 : ℝ) * (1 / 2) + -(1 / 2) * -(1 / 2))) = 0 by norm_num]
    unfold arctan2
    norm_num
  have ha2 : arctan2 (-(2 * ((1 / 2 : ℝ) * -(1 / 2) - 1 / 2 * (1 / 2)))) 0 = π / 2 := by
    rw [show (-(2 * ((1 / 2 : ℝ) * -(1 / 2) - 1 / 2 * (1 / 2)))) = 1 by norm_num]
    unfold arctan2
    norm_num
  rw [ha1, ha2]
  have hd : degrees (π / 2) = 90 := by
    unfold degrees
    field_simp
    ring
  have hd0 : degrees (0 : ℝ) = 0 := by
    unfold degrees
    simp
  rw [hd, hd0]

theorem apply_root_correction_identity_eval :
    apply_root_correction ⟨⟨0, 0, 0⟩, ⟨0, 0, 0, 1⟩, ⟨1, 1, 1⟩⟩ =
      ⟨⟨0, 0, 0⟩, ⟨1 / 2, 1 / 2, -(1 / 2), 1 / 2⟩, ⟨1, 1, 1⟩⟩ := by
  unfold apply_root_correction
  dsimp only
  rw [q_corr_eval]
  have hM : build_matrix4x4 ⟨0, 0, 0⟩ ⟨0, 0, 0, 1⟩ ⟨1, 1, 1⟩ =
      ⟨1, 0, 0, 0, 0, 1, 0, 0, 0, 0, 1, 0, 0, 0, 0, 1⟩ := by
    unfold build_matrix4x4
    dsimp only
    norm_num
  rw [hM]
  have hprod : Mat4.mul (Mat4.mul R_X_90 ⟨1, 0, 0, 0, 0, 1, 0, 0, 0, 0, 1, 0, 0, 0, 0, 1⟩)
      R_Z_N90 = ⟨0, 1, 0, 0, 0, 0, -1, 0, -1, 0, 0, 0, 0, 0, 0, 1⟩ := by
    unfold Mat4.mul R_X_90 R_Z_N90
    dsimp only
    norm_num
  rw [hprod]

/-- **C3 counterexample.** Applying the root-bone correction to the identity
transform yields the rotation quaternion `(1/2, 1/2, -1/2, 1/2)`, and the
system's quaternion-to-Euler-XYZ decomposition maps it (through the
gimbal-lock branch) to `(90, 90, 0)` degrees — not `(90, 0, -90)` as the
claim states. -/
theorem C3_counterexample_root_euler :
    quat_to_euler (apply_root_correction
      ⟨⟨0, 0, 0⟩, ⟨0, 0, 0, 1⟩, ⟨1, 1, 1⟩⟩).rotation ≠ ⟨90, 0, -90⟩ := by
  rw [apply_root_correction_identity_eval]
  dsimp only
  rw [quat_to_euler_corr_eval]
  intro h
  simp only [Vector3.mk.injEq] at h
  exact absurd h.2.1 (by norm_num)

/-- **C3 (amended).** Applying the root-bone correction to the identity
transform (translation `(0,0,0)`, rotation quaternion `(0,0,0,1)`, scale
`(1,1,1)`) yields a transform with translation `(0,0,0)`, scale `(1,1,1)`,
and a rotation quaternion that the system's quaternion-to-Euler-XYZ
decomposition maps to `(90, 90, 0)` degrees. -/
theorem C3_root_correction_identity_amended :
    (apply_root_correction ⟨⟨0, 0, 0⟩, ⟨0, 0, 0, 1⟩, ⟨1, 1, 1⟩⟩).translation = ⟨0, 0, 0⟩ ∧
    (apply_root_correction ⟨⟨0, 0, 0⟩, ⟨0, 0, 0, 1⟩, ⟨1, 1, 1⟩⟩).scale = ⟨1, 1, 1⟩ ∧
    quat_to_euler (apply_root_correction
      ⟨⟨0, 0, 0⟩, ⟨0, 0, 0, 1⟩, ⟨1, 1, 1⟩⟩).rotation = ⟨90, 90, 0⟩ := by
  rw [apply_root_correction_identity_eval]
  exact ⟨rfl, rfl, quat_to_euler_corr_eval⟩

end

end Nuanmb
